import Mathlib

/-!
Verification of the graph-mesh ensemble alignment core
(`graph_mesh_aligner`: `fusion.py`, `voting.py`, `quality.py`).

The Python code is shallowly embedded: real-valued confidences become
rationals (`ℚ`), Python dicts whose insertion order matters become
association lists in insertion order, and the one function that can raise
(`vote`, on an unrecognized strategy) returns `Except`.  `vote` also
returns the (possibly mutated) configuration object, because the source
assigns synthesized default weights into `config.matcher_weights`.
-/

/-- Decidable equality for `Except` results, so concrete runs of the
embedded `vote` can be checked by evaluation. -/
instance {ε α : Type} [DecidableEq ε] [DecidableEq α] : DecidableEq (Except ε α)
  | .ok a, .ok b =>
      decidable_of_iff (a = b) ⟨fun h => h ▸ rfl, fun h => by cases h; rfl⟩
  | .error a, .error b =>
      decidable_of_iff (a = b) ⟨fun h => h ▸ rfl, fun h => by cases h; rfl⟩
  | .ok _, .error _ => .isFalse (fun h => by cases h)
  | .error _, .ok _ => .isFalse (fun h => by cases h)

namespace GraphMesh

/-- Identity key `(subject_id, object_id, predicate_id)` of a mapping. -/
abbrev MappingKey := String × String × String

/-- `Mapping` from `fusion.py`: a single entity mapping claimed by one matcher. -/
structure Mapping where
  subject_id : String
  object_id : String
  predicate_id : String
  confidence : ℚ
  matcher_name : String
  mapping_justification : Option String
deriving DecidableEq

/-- `Mapping.get_key` from `fusion.py`. -/
def Mapping.get_key (m : Mapping) : MappingKey :=
  (m.subject_id, m.object_id, m.predicate_id)

/-- `FusedMapping` from `fusion.py`: the consensus view of one identity key.
`confidences` is the Python dict `matcher_name -> confidence` kept in
insertion order. -/
structure FusedMapping where
  subject_id : String
  object_id : String
  predicate_id : String
  confidences : List (String × ℚ)
  supporting_matchers : List String
  consensus_confidence : ℚ
  mapping_justification : Option String
deriving DecidableEq

/-- `FusedMapping.support_count` property from `fusion.py`. -/
def FusedMapping.support_count (m : FusedMapping) : ℕ :=
  m.supporting_matchers.length

/-- `FusedMapping.get_key` from `fusion.py`. -/
def FusedMapping.get_key (m : FusedMapping) : MappingKey :=
  (m.subject_id, m.object_id, m.predicate_id)

/-- Lookup in an insertion-ordered association list (Python `dict.get`,
returning `none` when the key is absent). -/
def lookupQ : List (String × ℚ) → String → Option ℚ
  | [], _ => none
  | p :: t, n => if p.1 = n then some p.2 else lookupQ t n

/-- Keep the first occurrence of each element, in order: the key order of a
Python dict or set built by insertion.  `seen` accumulates keys met so far. -/
def dedupFirstAux {α : Type} [DecidableEq α] (seen : List α) : List α → List α
  | [] => []
  | a :: l => if a ∈ seen then dedupFirstAux seen l else a :: dedupFirstAux (a :: seen) l

/-- First-occurrence deduplication (Python dict/set insertion order). -/
def dedupFirst {α : Type} [DecidableEq α] (l : List α) : List α :=
  dedupFirstAux [] l

/-- One step of building the `confidences` dict in `fuse_mappings`
(`fusion.py` lines 140-146): Python executes
`confidences[name] = max(confidences.get(name, 0.0), confidence)`,
which seeds an absent key with `max 0 c` and keeps dict insertion order. -/
def upsertMax (acc : List (String × ℚ)) (name : String) (c : ℚ) : List (String × ℚ) :=
  match lookupQ acc name with
  | some _ => acc.map (fun p => if p.1 = name then (p.1, max p.2 c) else p)
  | none => acc ++ [(name, max 0 c)]

/-- The `justifications` list of `fuse_mappings` (`fusion.py` line 152):
the truthy (non-`None`, non-empty) per-record justifications, in record
order, duplicates retained. -/
def truthyJustifications (ms : List Mapping) : List String :=
  ms.filterMap
    (fun m => m.mapping_justification.bind (fun j => if j = "" then none else some j))

/-- Fuse one key group (`fusion.py` lines 133-165): collapse duplicate
claims per matcher by `upsertMax`, derive `supporting_matchers` as the dict
keys in insertion order, average the collapsed confidences, and join the
truthy justifications with a semicolon. -/
def fuseGroup (k : MappingKey) (ms : List Mapping) : FusedMapping :=
  let confs := ms.foldl (fun acc m => upsertMax acc m.matcher_name m.confidence) []
  let justs := truthyJustifications ms
  { subject_id := k.1
    object_id := k.2.1
    predicate_id := k.2.2
    confidences := confs
    supporting_matchers := confs.map Prod.fst
    consensus_confidence := (confs.map Prod.snd).sum / (confs.length : ℚ)
    mapping_justification :=
      if justs.isEmpty then none else some (String.intercalate "; " justs) }

/-- The flat record list `all_mappings` of `fuse_mappings` (`fusion.py`
lines 117-122): each matcher's records are tagged with that matcher's name
(as `load_sssom_mappings` does) and filtered by `confidence >= min_confidence`,
then concatenated in matcher order. -/
def prepared (input : List (String × List Mapping)) (min_confidence : ℚ) : List Mapping :=
  (input.map (fun p =>
    (p.2.map (fun m => { m with matcher_name := p.1 })).filter
      (fun m => min_confidence ≤ m.confidence))).flatten

/-- `fuse_mappings` from `fusion.py` (loading from disk replaced by the
already-parsed per-matcher record lists): group the prepared records by
identity key in first-seen key order and fuse each group. -/
def fuse_mappings (input : List (String × List Mapping)) (min_confidence : ℚ) :
    List FusedMapping :=
  let all := prepared input min_confidence
  (dedupFirst (all.map Mapping.get_key)).map
    (fun k => fuseGroup k (all.filter (fun m => m.get_key = k)))

/-- `VotingConfig` from `voting.py`.  The `VotingStrategy` enum is embedded
by its string values (`"majority"`, `"unanimous"`, `"weighted"`,
`"confidence_weighted"`, `"threshold"`); any other string models a strategy
value outside the enumerated set, which `vote`'s dispatch chain rejects. -/
structure VotingConfig where
  strategy : String := "majority"
  min_support_count : ℤ := 2
  min_support_ratio : ℚ := 1/2
  min_confidence : ℚ := 0
  matcher_weights : Option (List (String × ℚ)) := none
deriving DecidableEq

/-- `VotingResult` from `voting.py`. -/
structure VotingResult where
  accepted_mappings : List FusedMapping
  rejected_mappings : List FusedMapping
  total_matchers : ℕ
  voting_strategy : String
deriving DecidableEq

/-- `matcher_weights.get(matcher, 0.0)` (`voting.py` lines 113-115). -/
def weightsGet (w : List (String × ℚ)) (name : String) : ℚ :=
  (lookupQ w name).getD 0

/-- `mapping.confidences.get(matcher, 0.0)` (`voting.py` line 150). -/
def confGet (m : FusedMapping) (name : String) : ℚ :=
  (lookupQ m.confidences name).getD 0

/-- `apply_majority_voting` from `voting.py`: accept iff
`support_count >= total_matchers / 2.0 + 0.5`. -/
def apply_majority_voting (ms : List FusedMapping) (total_matchers : ℕ) :
    List FusedMapping :=
  ms.filter (fun m => (total_matchers : ℚ) / 2 + 1/2 ≤ (m.support_count : ℚ))

/-- `apply_unanimous_voting` from `voting.py`: accept iff
`support_count == total_matchers`. -/
def apply_unanimous_voting (ms : List FusedMapping) (total_matchers : ℕ) :
    List FusedMapping :=
  ms.filter (fun m => m.support_count = total_matchers)

/-- `apply_weighted_voting` from `voting.py`: accept iff the sum of the
supporting matchers' weights (absent matchers weigh `0`) reaches `threshold`. -/
def apply_weighted_voting (ms : List FusedMapping) (w : List (String × ℚ))
    (threshold : ℚ) : List FusedMapping :=
  ms.filter (fun m => threshold ≤ (m.supporting_matchers.map (weightsGet w)).sum)

/-- `apply_confidence_weighted_voting` from `voting.py`: accept iff the sum
of weight times per-matcher confidence over the supporting matchers reaches
`threshold`. -/
def apply_confidence_weighted_voting (ms : List FusedMapping)
    (w : List (String × ℚ)) (threshold : ℚ) : List FusedMapping :=
  ms.filter (fun m =>
    threshold ≤ (m.supporting_matchers.map
      (fun name => weightsGet w name * confGet m name)).sum)

/-- Truncation toward zero, the semantics of Python `int(...)` on a real
value (`voting.py` line 182 `int(min_support_ratio * total_matchers)`). -/
def truncTowardZero (q : ℚ) : ℤ :=
  if 0 ≤ q then ⌊q⌋ else ⌈q⌉

/-- `apply_threshold_voting` from `voting.py`: accept iff `support_count`
reaches `max(min_support_count, int(min_support_ratio * total_matchers))`. -/
def apply_threshold_voting (ms : List FusedMapping) (min_support_count : ℤ)
    (min_support_ratio : ℚ) (total_matchers : ℕ) : List FusedMapping :=
  let min_count_from_ratio := truncTowardZero (min_support_ratio * (total_matchers : ℚ))
  let effective_threshold := max min_support_count min_count_from_ratio
  ms.filter (fun m => effective_threshold ≤ (m.support_count : ℤ))

/-- The pre-filter step of `vote` (`voting.py` lines 213-221): drop records
below `min_confidence`, but only when `min_confidence > 0`. -/
def preFilter (ms : List FusedMapping) (config : VotingConfig) : List FusedMapping :=
  if 0 < config.min_confidence then
    ms.filter (fun m => config.min_confidence ≤ m.consensus_confidence)
  else ms

/-- Python truthiness of `config.matcher_weights` in
`if not config.matcher_weights:` (`voting.py` lines 231, 242): `None` and
the empty dict are both falsy. -/
def weightsAbsent (o : Option (List (String × ℚ))) : Bool :=
  match o with
  | none => true
  | some l => l.isEmpty

/-- The uniform placeholder weights `{f"matcher_{i}": 1.0 / total_matchers}`
synthesized by `vote` (`voting.py` lines 233, 244). -/
def defaultWeights (total_matchers : ℕ) : List (String × ℚ) :=
  (List.range total_matchers).map
    (fun i => ("matcher_" ++ toString i, 1 / (total_matchers : ℚ)))

/-- The result-assembly step of `vote` (`voting.py` lines 263-272):
`rejected` is every pre-filtered record whose identity key is not among the
accepted keys. -/
def mkVotingResult (pre accepted : List FusedMapping) (total_matchers : ℕ)
    (strategy : String) : VotingResult :=
  { accepted_mappings := accepted
    rejected_mappings :=
      pre.filter (fun m => m.get_key ∉ accepted.map FusedMapping.get_key)
    total_matchers := total_matchers
    voting_strategy := strategy }

/-- `vote` from `voting.py`.  Raising `ValueError` on an unrecognized
strategy becomes `Except.error`; the returned `VotingConfig` is the state of
the caller's config object after the call, since the weighted branches
assign synthesized default weights into `config.matcher_weights`. -/
def vote (fused_mappings : List FusedMapping) (config : VotingConfig)
    (total_matchers : ℕ) : Except String (VotingResult × VotingConfig) :=
  let pre := preFilter fused_mappings config
  if config.strategy = "majority" then
    .ok (mkVotingResult pre (apply_majority_voting pre total_matchers)
      total_matchers config.strategy, config)
  else if config.strategy = "unanimous" then
    .ok (mkVotingResult pre (apply_unanimous_voting pre total_matchers)
      total_matchers config.strategy, config)
  else if config.strategy = "weighted" then
    let config' :=
      if weightsAbsent config.matcher_weights then
        { config with matcher_weights := some (defaultWeights total_matchers) }
      else config
    .ok (mkVotingResult pre
      (apply_weighted_voting pre (config'.matcher_weights.getD [])
        config.min_support_ratio)
      total_matchers config.strategy, config')
  else if config.strategy = "confidence_weighted" then
    let config' :=
      if weightsAbsent config.matcher_weights then
        { config with matcher_weights := some (defaultWeights total_matchers) }
      else config
    .ok (mkVotingResult pre
      (apply_confidence_weighted_voting pre (config'.matcher_weights.getD [])
        config.min_support_ratio)
      total_matchers config.strategy, config')
  else if config.strategy = "threshold" then
    .ok (mkVotingResult pre
      (apply_threshold_voting pre config.min_support_count
        config.min_support_ratio total_matchers)
      total_matchers config.strategy, config)
  else
    .error ("Unknown voting strategy: " ++ config.strategy)

/-- `QualityMetrics` from `quality.py`.  The three distribution dicts are
kept as insertion-ordered association lists. -/
structure QualityMetrics where
  total_mappings : ℕ
  unique_subjects : ℕ
  unique_objects : ℕ
  avg_confidence : ℚ
  min_confidence : ℚ
  max_confidence : ℚ
  avg_support_count : ℚ
  min_support_count : ℕ
  max_support_count : ℕ
  confidence_distribution : List (String × ℕ) := []
  support_distribution : List (ℕ × ℕ) := []
  predicate_distribution : List (String × ℕ) := []
deriving DecidableEq

/-- Python `min` over a list of rationals (callers guarantee nonempty). -/
def qMin : List ℚ → ℚ
  | [] => 0
  | h :: t => t.foldl min h

/-- Python `max` over a list of rationals (callers guarantee nonempty). -/
def qMax : List ℚ → ℚ
  | [] => 0
  | h :: t => t.foldl max h

/-- Python `min` over a list of naturals (callers guarantee nonempty). -/
def nMin : List ℕ → ℕ
  | [] => 0
  | h :: t => t.foldl min h

/-- Python `max` over a list of naturals (callers guarantee nonempty). -/
def nMax : List ℕ → ℕ
  | [] => 0
  | h :: t => t.foldl max h

/-- A histogram dict built by `d[k] = d.get(k, 0) + 1` over a list: keys in
first-seen order, each with its number of occurrences. -/
def occurrenceCounts {α : Type} [DecidableEq α] (l : List α) : List (α × ℕ) :=
  (dedupFirst l).map (fun v => (v, l.count v))

/-- `calculate_quality_metrics` from `quality.py`: all-zero metrics with
empty distributions on empty input, otherwise counts, mean/min/max
statistics, the fixed five-bin confidence histogram (last bin closed), and
the support and predicate histograms. -/
def calculate_quality_metrics (mappings : List FusedMapping) : QualityMetrics :=
  if mappings.isEmpty then
    { total_mappings := 0
      unique_subjects := 0
      unique_objects := 0
      avg_confidence := 0
      min_confidence := 0
      max_confidence := 0
      avg_support_count := 0
      min_support_count := 0
      max_support_count := 0 }
  else
    let confidences := mappings.map FusedMapping.consensus_confidence
    let support_counts := mappings.map FusedMapping.support_count
    { total_mappings := mappings.length
      unique_subjects := (dedupFirst (mappings.map FusedMapping.subject_id)).length
      unique_objects := (dedupFirst (mappings.map FusedMapping.object_id)).length
      avg_confidence := confidences.sum / (confidences.length : ℚ)
      min_confidence := qMin confidences
      max_confidence := qMax confidences
      avg_support_count := ((support_counts.map (fun n => (n : ℚ))).sum) / (support_counts.length : ℚ)
      min_support_count := nMin support_counts
      max_support_count := nMax support_counts
      confidence_distribution :=
        [ ("0.0-0.2", confidences.countP (fun c => decide (0 ≤ c ∧ c < 1/5))),
          ("0.2-0.4", confidences.countP (fun c => decide (1/5 ≤ c ∧ c < 2/5))),
          ("0.4-0.6", confidences.countP (fun c => decide (2/5 ≤ c ∧ c < 3/5))),
          ("0.6-0.8", confidences.countP (fun c => decide (3/5 ≤ c ∧ c < 4/5))),
          ("0.8-1.0", confidences.countP (fun c => decide (4/5 ≤ c ∧ c ≤ 1))) ]
      support_distribution := occurrenceCounts support_counts
      predicate_distribution := occurrenceCounts (mappings.map FusedMapping.predicate_id) }

/-- `identify_conflicts` from `quality.py`: group by subject in first-seen
order and keep the subjects whose records span more than one distinct
object. -/
def identify_conflicts (mappings : List FusedMapping) :
    List (String × List FusedMapping) :=
  ((dedupFirst (mappings.map FusedMapping.subject_id)).map
    (fun s => (s, mappings.filter (fun m => m.subject_id = s)))).filter
    (fun p => 1 < (dedupFirst (p.2.map FusedMapping.object_id)).length)

/-- `ConflictReport` from `quality.py`. -/
structure ConflictReport where
  total_conflicts : ℕ
  conflicting_subjects : List String
  conflict_details : List (String × List FusedMapping)
  resolution_strategy : String
  resolved_mappings : List FusedMapping
deriving DecidableEq

/-- Python `max(mappings_list, key=lambda m: m.consensus_confidence)`
(`quality.py` line 170): the first record attaining the maximal consensus
confidence; `none` on an empty list (where Python would raise). -/
def maxByConfidence : List FusedMapping → Option FusedMapping
  | [] => none
  | h :: t => some (t.foldl
      (fun best m =>
        if best.consensus_confidence < m.consensus_confidence then m else best) h)

/-- `resolve_conflicts_by_confidence` from `quality.py`. -/
def resolve_conflicts_by_confidence (conflicts : List (String × List FusedMapping)) :
    List FusedMapping :=
  conflicts.filterMap (fun p => maxByConfidence p.2)

/-- The head of Python's stable descending sort by
`(support_count, consensus_confidence)` (`quality.py` lines 198-203): the
first record whose key pair is lexicographically maximal. -/
def bestBySupport : List FusedMapping → Option FusedMapping
  | [] => none
  | h :: t => some (t.foldl
      (fun best m =>
        if best.support_count < m.support_count ∨
            (best.support_count = m.support_count ∧
              best.consensus_confidence < m.consensus_confidence)
        then m else best) h)

/-- `resolve_conflicts_by_support` from `quality.py`. -/
def resolve_conflicts_by_support (conflicts : List (String × List FusedMapping)) :
    List FusedMapping :=
  conflicts.filterMap (fun p => bestBySupport p.2)

/-- The fixed `predicate_rank` table of `resolve_conflicts_by_specificity`
(`quality.py` lines 228-235), defaulting to `0` for unknown predicates. -/
def predicateRank (p : String) : ℕ :=
  if p = "owl:equivalentClass" then 3
  else if p = "skos:exactMatch" then 3
  else if p = "skos:closeMatch" then 2
  else if p = "skos:relatedMatch" then 1
  else if p = "skos:broadMatch" then 1
  else if p = "skos:narrowMatch" then 1
  else 0

/-- The head of Python's stable descending sort by
`(predicate_rank, consensus_confidence)` (`quality.py` lines 241-249). -/
def bestBySpecificity : List FusedMapping → Option FusedMapping
  | [] => none
  | h :: t => some (t.foldl
      (fun best m =>
        if predicateRank best.predicate_id < predicateRank m.predicate_id ∨
            (predicateRank best.predicate_id = predicateRank m.predicate_id ∧
              best.consensus_confidence < m.consensus_confidence)
        then m else best) h)

/-- `resolve_conflicts_by_specificity` from `quality.py`. -/
def resolve_conflicts_by_specificity (conflicts : List (String × List FusedMapping)) :
    List FusedMapping :=
  conflicts.filterMap (fun p => bestBySpecificity p.2)

/-- `resolve_conflicts_keep_all` from `quality.py`: concatenate every
conflict group. -/
def resolve_conflicts_keep_all (conflicts : List (String × List FusedMapping)) :
    List FusedMapping :=
  (conflicts.map Prod.snd).flatten

/-- Insert a string into an ascending-sorted list. -/
def insertSorted (s : String) : List String → List String
  | [] => [s]
  | h :: t => if h < s then h :: insertSorted s t else s :: h :: t

/-- Python `sorted` over strings (insertion sort, ascending). -/
def sortStrings (l : List String) : List String :=
  l.foldr insertSorted []

/-- `resolve_conflicts` from `quality.py`: detect conflicts, dispatch on the
strategy string with a silent fallback to `"confidence"` for unknown
strategies, and assemble non-conflicting records followed by the per-subject
resolutions. -/
def resolve_conflicts (mappings : List FusedMapping) (strategy : String) :
    ConflictReport :=
  let conflicts := identify_conflicts mappings
  if conflicts.isEmpty then
    { total_conflicts := 0
      conflicting_subjects := []
      conflict_details := []
      resolution_strategy := strategy
      resolved_mappings := mappings }
  else
    let resolved :=
      if strategy = "confidence" then resolve_conflicts_by_confidence conflicts
      else if strategy = "support" then resolve_conflicts_by_support conflicts
      else if strategy = "specificity" then resolve_conflicts_by_specificity conflicts
      else if strategy = "keep_all" then resolve_conflicts_keep_all conflicts
      else resolve_conflicts_by_confidence conflicts
    let conflict_subjects := conflicts.map Prod.fst
    { total_conflicts := conflicts.length
      conflicting_subjects := sortStrings conflict_subjects
      conflict_details := conflicts
      resolution_strategy := strategy
      resolved_mappings :=
        mappings.filter (fun m => m.subject_id ∉ conflict_subjects) ++ resolved }

/-- The result dict of `compare_with_reference` (`quality.py`). -/
structure ComparisonResult where
  precision : ℚ
  «recall» : ℚ
  f1_score : ℚ
  true_positives : ℕ
  false_positives : ℕ
  false_negatives : ℕ
deriving DecidableEq

/-- `compare_with_reference` from `quality.py`: identity-key set overlap
with precision and recall defined as `0.0` on a zero denominator and F1
defined as `0.0` when precision and recall are both `0`. -/
def compare_with_reference (mappings reference_mappings : List FusedMapping) :
    ComparisonResult :=
  let mapping_keys := dedupFirst (mappings.map FusedMapping.get_key)
  let reference_keys := dedupFirst (reference_mappings.map FusedMapping.get_key)
  let tp := (mapping_keys.filter (fun k => k ∈ reference_keys)).length
  let fp := (mapping_keys.filter (fun k => k ∉ reference_keys)).length
  let fn := (reference_keys.filter (fun k => k ∉ mapping_keys)).length
  let precision := if 0 < tp + fp then (tp : ℚ) / ((tp : ℚ) + (fp : ℚ)) else 0
  let «recall» := if 0 < tp + fn then (tp : ℚ) / ((tp : ℚ) + (fn : ℚ)) else 0
  let f1 := if 0 < precision + «recall» then
      2 * (precision * «recall») / (precision + «recall») else 0
  { precision := precision
    «recall» := «recall»
    f1_score := f1
    true_positives := tp
    false_positives := fp
    false_negatives := fn }

/-! ### Helper lemmas -/

lemma mem_dedupFirstAux {α : Type} [DecidableEq α] (seen l : List α) (x : α) :
    x ∈ dedupFirstAux seen l ↔ x ∈ l ∧ x ∉ seen := by
  induction l generalizing seen with
  | nil => simp [dedupFirstAux]
  | cons a l ih =>
    by_cases h : a ∈ seen
    · rw [dedupFirstAux, if_pos h, ih]
      constructor
      · rintro ⟨hx, hs⟩
        exact ⟨List.mem_cons_of_mem _ hx, hs⟩
      · rintro ⟨hx, hs⟩
        rcases List.mem_cons.mp hx with rfl | hx
        · exact absurd h hs
        · exact ⟨hx, hs⟩
    · rw [dedupFirstAux, if_neg h]
      constructor
      · intro hx
        rcases List.mem_cons.mp hx with rfl | hx
        · exact ⟨List.mem_cons_self _ _, h⟩
        · rcases (ih _).mp hx with ⟨hl, hs⟩
          refine ⟨List.mem_cons_of_mem _ hl, fun hc => hs (List.mem_cons_of_mem _ hc)⟩
      · rintro ⟨hx, hs⟩
        rcases List.mem_cons.mp hx with rfl | hx
        · exact List.mem_cons_self _ _
        · by_cases hxa : x = a
          · exact hxa ▸ List.mem_cons_self _ _
          · exact List.mem_cons_of_mem _ ((ih _).mpr
              ⟨hx, fun hc => (List.mem_cons.mp hc).elim hxa hs⟩)

lemma mem_dedupFirst {α : Type} [DecidableEq α] (l : List α) (x : α) :
    x ∈ dedupFirst l ↔ x ∈ l := by
  simp [dedupFirst, mem_dedupFirstAux]

lemma nodup_dedupFirstAux {α : Type} [DecidableEq α] (seen l : List α) :
    (dedupFirstAux seen l).Nodup := by
  induction l generalizing seen with
  | nil => simp [dedupFirstAux]
  | cons a l ih =>
    by_cases h : a ∈ seen
    · rw [dedupFirstAux, if_pos h]
      exact ih seen
    · rw [dedupFirstAux, if_neg h]
      refine List.nodup_cons.mpr ⟨fun hc => ?_, ih _⟩
      exact ((mem_dedupFirstAux _ _ _).mp hc).2 (List.mem_cons_self _ _)

lemma nodup_dedupFirst {α : Type} [DecidableEq α] (l : List α) :
    (dedupFirst l).Nodup :=
  nodup_dedupFirstAux [] l

/-- The pre-filter never adds records: it is the identity or a filter. -/
lemma preFilter_sublist (ms : List FusedMapping) (config : VotingConfig) :
    (preFilter ms config).Sublist ms := by
  rw [preFilter]
  split
  · exact List.filter_sublist ms
  · exact List.Sublist.refl ms

/-- Core of the partition property: when the pre-filtered records have
pairwise-distinct identity keys, the key-based rejection step puts every
record in exactly one of `accepted` / `rejected`. -/
lemma mkVotingResult_partition (pre : List FusedMapping) (p : FusedMapping → Bool)
    (total : ℕ) (s : String)
    (hnd : (pre.map FusedMapping.get_key).Nodup) :
    (∀ m ∈ pre,
      (m ∈ (mkVotingResult pre (pre.filter p) total s).accepted_mappings ∧
        m ∉ (mkVotingResult pre (pre.filter p) total s).rejected_mappings) ∨
      (m ∉ (mkVotingResult pre (pre.filter p) total s).accepted_mappings ∧
        m ∈ (mkVotingResult pre (pre.filter p) total s).rejected_mappings)) ∧
    (∀ m ∈ (mkVotingResult pre (pre.filter p) total s).accepted_mappings, m ∈ pre) ∧
    (∀ m ∈ (mkVotingResult pre (pre.filter p) total s).rejected_mappings, m ∈ pre) := by
  have hinj := List.inj_on_of_nodup_map hnd
  simp only [mkVotingResult]
  refine ⟨fun m hm => ?_, fun m hm => (List.mem_filter.mp hm).1,
    fun m hm => (List.mem_filter.mp hm).1⟩
  by_cases hp : p m
  · left
    refine ⟨List.mem_filter.mpr ⟨hm, hp⟩, fun hr => ?_⟩
    have := (List.mem_filter.mp hr).2
    rw [decide_eq_true_eq] at this
    exact this (List.mem_map.mpr ⟨m, List.mem_filter.mpr ⟨hm, hp⟩, rfl⟩)
  · right
    refine ⟨fun ha => hp (List.mem_filter.mp ha).2, List.mem_filter.mpr ⟨hm, ?_⟩⟩
    rw [decide_eq_true_eq]
    intro hk
    rcases List.mem_map.mp hk with ⟨a, haf, hak⟩
    have ha := List.mem_filter.mp haf
    have : a = m := hinj ha.1 hm hak
    exact hp (this ▸ ha.2)

/-- C1 (amended): for every input list whose records have pairwise-distinct
identity keys (which is how fusion produces them) and every config with one
of the five enumerated strategies, `vote` partitions the pre-filtered set:
every surviving record lands in exactly one of `accepted_mappings` and
`rejected_mappings`, and both lists draw only from the pre-filtered set. -/
theorem vote_partitions_prefiltered
    (ms : List FusedMapping) (config : VotingConfig) (total : ℕ)
    (hs : config.strategy ∈
      ["majority", "unanimous", "weighted", "confidence_weighted", "threshold"])
    (hnd : (ms.map FusedMapping.get_key).Nodup) :
    ∃ res cfg', vote ms config total = .ok (res, cfg') ∧
      (∀ m ∈ preFilter ms config,
        (m ∈ res.accepted_mappings ∧ m ∉ res.rejected_mappings) ∨
        (m ∉ res.accepted_mappings ∧ m ∈ res.rejected_mappings)) ∧
      (∀ m ∈ res.accepted_mappings, m ∈ preFilter ms config) ∧
      (∀ m ∈ res.rejected_mappings, m ∈ preFilter ms config) := by
  have hnd' : ((preFilter ms config).map FusedMapping.get_key).Nodup :=
    hnd.sublist (List.Sublist.map _ (preFilter_sublist ms config))
  simp only [List.mem_cons, List.not_mem_nil, or_false] at hs
  rcases hs with h | h | h | h | h
  all_goals rw [vote]
  · rw [if_pos h]
    exact ⟨_, _, rfl, (mkVotingResult_partition _ _ _ _ hnd').1,
      (mkVotingResult_partition _ _ _ _ hnd').2.1,
      (mkVotingResult_partition _ _ _ _ hnd').2.2⟩
  · rw [if_neg (by rw [h]; decide), if_pos h]
    exact ⟨_, _, rfl, (mkVotingResult_partition _ _ _ _ hnd').1,
      (mkVotingResult_partition _ _ _ _ hnd').2.1,
      (mkVotingResult_partition _ _ _ _ hnd').2.2⟩
  · rw [if_neg (by rw [h]; decide), if_neg (by rw [h]; decide), if_pos h]
    exact ⟨_, _, rfl, (mkVotingResult_partition _ _ _ _ hnd').1,
      (mkVotingResult_partition _ _ _ _ hnd').2.1,
      (mkVotingResult_partition _ _ _ _ hnd').2.2⟩
  · rw [if_neg (by rw [h]; decide), if_neg (by rw [h]; decide),
      if_neg (by rw [h]; decide), if_pos h]
    exact ⟨_, _, rfl, (mkVotingResult_partition _ _ _ _ hnd').1,
      (mkVotingResult_partition _ _ _ _ hnd').2.1,
      (mkVotingResult_partition _ _ _ _ hnd').2.2⟩
  · rw [if_neg (by rw [h]; decide), if_neg (by rw [h]; decide),
      if_neg (by rw [h]; decide), if_neg (by rw [h]; decide), if_pos h]
    exact ⟨_, _, rfl, (mkVotingResult_partition _ _ _ _ hnd').1,
      (mkVotingResult_partition _ _ _ _ hnd').2.1,
      (mkVotingResult_partition _ _ _ _ hnd').2.2⟩

/-- Two fused records sharing the identity key `("s","o","p")` but with
different support, as an arbitrary caller may pass to `vote`. -/
def cxDupA : FusedMapping :=
  ⟨"s", "o", "p", [("m1", 1), ("m2", 1)], ["m1", "m2"], 1, none⟩

/-- Companion record with the same identity key as `cxDupA` but support 1. -/
def cxDupB : FusedMapping :=
  ⟨"s", "o", "p", [("m1", 1)], ["m1"], 1, none⟩

/-- The default voting configuration (majority strategy, no pre-filter). -/
def cxConfig : VotingConfig := {}

/-- A voting configuration selecting the Unanimous strategy (the support
ratio, unused by this strategy, is zeroed so that concrete runs evaluate). -/
def cxConfigU : VotingConfig := { strategy := "unanimous", min_support_ratio := 0 }

/-- C1 is false as stated: with two key-equal records of different support
under Unanimous voting (ensemble size 1), the support-2 record survives the
pre-filter yet lands in neither `accepted_mappings` nor `rejected_mappings`,
because rejection is computed by identity key. -/
theorem vote_partition_counterexample :
    cxDupA ∈ preFilter [cxDupA, cxDupB] cxConfigU ∧
    vote [cxDupA, cxDupB] cxConfigU 1 =
      .ok (⟨[cxDupB], [], 1, "unanimous"⟩, cxConfigU) ∧
    cxDupA ∉ [cxDupB] ∧ cxDupA ∉ ([] : List FusedMapping) := by
  refine ⟨by decide, by decide, by decide, by decide⟩

/-- Witness: the amended partition theorem applied at a concrete
distinct-key input. -/
theorem vote_partitions_prefiltered_witness :
    ∃ res cfg', vote [cxDupA] cxConfig 3 = .ok (res, cfg') ∧
      (∀ m ∈ preFilter [cxDupA] cxConfig,
        (m ∈ res.accepted_mappings ∧ m ∉ res.rejected_mappings) ∨
        (m ∉ res.accepted_mappings ∧ m ∈ res.rejected_mappings)) ∧
      (∀ m ∈ res.accepted_mappings, m ∈ preFilter [cxDupA] cxConfig) ∧
      (∀ m ∈ res.rejected_mappings, m ∈ preFilter [cxDupA] cxConfig) :=
  vote_partitions_prefiltered [cxDupA] cxConfig 3 (by decide) (by decide)

/-! ### Association-list lemmas for the fusion confidence dict -/

lemma lookupQ_append_some {acc : List (String × ℚ)} {n : String} {v : ℚ}
    (h : lookupQ acc n = some v) (l : List (String × ℚ)) :
    lookupQ (acc ++ l) n = some v := by
  induction acc with
  | nil => simp [lookupQ] at h
  | cons p t ih =>
    rw [List.cons_append, lookupQ]
    rw [lookupQ] at h
    by_cases hp : p.1 = n
    · rwa [if_pos hp] at h ⊢
    · rw [if_neg hp] at h ⊢
      exact ih h

lemma lookupQ_append_none {acc : List (String × ℚ)} {n : String}
    (h : lookupQ acc n = none) (l : List (String × ℚ)) :
    lookupQ (acc ++ l) n = lookupQ l n := by
  induction acc with
  | nil => simp
  | cons p t ih =>
    rw [lookupQ] at h
    by_cases hp : p.1 = n
    · rw [if_pos hp] at h
      exact absurd h (by simp)
    · rw [if_neg hp] at h
      rw [List.cons_append, lookupQ, if_neg hp]
      exact ih h

lemma lookupQ_mapUpd_ne (t : List (String × ℚ)) (name : String) (c : ℚ)
    (n : String) (hn : n ≠ name) :
    lookupQ (t.map (fun p => if p.1 = name then (p.1, max p.2 c) else p)) n =
      lookupQ t n := by
  induction t with
  | nil => rfl
  | cons p t ih =>
    by_cases hp : p.1 = name
    · have hpn : ¬ p.1 = n := fun h2 => hn (h2 ▸ hp)
      rw [List.map_cons, if_pos hp, lookupQ, lookupQ, if_neg hpn, if_neg hpn]
      exact ih
    · rw [List.map_cons, if_neg hp, lookupQ, lookupQ]
      by_cases hpn : p.1 = n
      · rw [if_pos hpn, if_pos hpn]
      · rw [if_neg hpn, if_neg hpn]
        exact ih

lemma lookupQ_mapUpd_self (t : List (String × ℚ)) (name : String) (c : ℚ)
    (v : ℚ) (h : lookupQ t name = some v) :
    lookupQ (t.map (fun p => if p.1 = name then (p.1, max p.2 c) else p)) name =
      some (max v c) := by
  induction t with
  | nil => simp [lookupQ] at h
  | cons p t ih =>
    rw [lookupQ] at h
    by_cases hp : p.1 = name
    · rw [if_pos hp] at h
      rw [List.map_cons, if_pos hp, lookupQ, if_pos hp]
      rw [Option.some_inj] at h
      rw [h]
    · rw [if_neg hp] at h
      rw [List.map_cons, if_neg hp, lookupQ, if_neg hp]
      exact ih h

lemma lookupQ_upsertMax_self (acc : List (String × ℚ)) (name : String) (c : ℚ) :
    lookupQ (upsertMax acc name c) name =
      some (max ((lookupQ acc name).getD 0) c) := by
  rcases h : lookupQ acc name with - | v
  · simp only [upsertMax, h, Option.getD_none]
    rw [lookupQ_append_none h, lookupQ, if_pos rfl]
  · simp only [upsertMax, h, Option.getD_some]
    exact lookupQ_mapUpd_self acc name c v h

lemma lookupQ_upsertMax_ne (acc : List (String × ℚ)) (name : String) (c : ℚ)
    (n : String) (hn : n ≠ name) :
    lookupQ (upsertMax acc name c) n = lookupQ acc n := by
  rcases h : lookupQ acc name with - | v
  · simp only [upsertMax, h]
    rcases h2 : lookupQ acc n with - | w
    · rw [lookupQ_append_none h2, lookupQ, if_neg (fun hc => hn hc.symm), lookupQ]
    · rw [lookupQ_append_some h2]
  · simp only [upsertMax, h]
    exact lookupQ_mapUpd_ne acc name c n hn

/-- What the `confidences` dict of `fuse_mappings` holds for each matcher
after folding a record group through `upsertMax`, when the matcher already
has an entry `v` in the accumulator: the running maximum seeded with `v`. -/
lemma foldl_upsert_lookup_some (g : List Mapping) (acc : List (String × ℚ))
    (n : String) (v : ℚ) (h : lookupQ acc n = some v) :
    lookupQ (g.foldl (fun a m => upsertMax a m.matcher_name m.confidence) acc) n =
      some (((g.filter (fun m => m.matcher_name = n)).map
        Mapping.confidence).foldl max v) := by
  induction g generalizing acc v with
  | nil => simpa using h
  | cons m t ih =>
    rw [List.foldl_cons]
    by_cases hm : m.matcher_name = n
    · have hacc : lookupQ (upsertMax acc m.matcher_name m.confidence) n =
          some (max v m.confidence) := by
        rw [hm, lookupQ_upsertMax_self, h, Option.getD_some]
      rw [ih _ _ hacc, List.filter_cons, if_pos (by simpa using hm),
        List.map_cons, List.foldl_cons]
    · have hne : n ≠ m.matcher_name := fun hc => hm hc.symm
      have hacc : lookupQ (upsertMax acc m.matcher_name m.confidence) n = some v := by
        rw [lookupQ_upsertMax_ne _ _ _ _ hne, h]
      rw [ih _ _ hacc, List.filter_cons, if_neg (by simpa using hm)]

/-- Companion to `foldl_upsert_lookup_some` for a matcher with no entry in
the accumulator: present in the result exactly when it tags some record of
the group, and then its entry is the group maximum seeded with `0`
(Python seeds with `confidences.get(name, 0.0)`). -/
lemma foldl_upsert_lookup_none (g : List Mapping) (acc : List (String × ℚ))
    (n : String) (h : lookupQ acc n = none) :
    lookupQ (g.foldl (fun a m => upsertMax a m.matcher_name m.confidence) acc) n =
      (if n ∈ g.map Mapping.matcher_name then
        some (((g.filter (fun m => m.matcher_name = n)).map
          Mapping.confidence).foldl max 0)
      else none) := by
  induction g generalizing acc with
  | nil => simpa using h
  | cons m t ih =>
    rw [List.foldl_cons]
    by_cases hm : m.matcher_name = n
    · have hacc : lookupQ (upsertMax acc m.matcher_name m.confidence) n =
          some (max 0 m.confidence) := by
        rw [hm, lookupQ_upsertMax_self, h, Option.getD_none]
      rw [foldl_upsert_lookup_some t _ _ _ hacc,
        if_pos (List.mem_map.mpr ⟨m, List.mem_cons_self _ _, hm⟩),
        List.filter_cons,
        if_pos (show decide (m.matcher_name = n) = true by simpa using hm),
        List.map_cons, List.foldl_cons]
    · have hne : n ≠ m.matcher_name := fun hc => hm hc.symm
      have hacc : lookupQ (upsertMax acc m.matcher_name m.confidence) n = none := by
        rw [lookupQ_upsertMax_ne _ _ _ _ hne, h]
      rw [ih _ hacc, List.filter_cons,
        if_neg (show ¬ decide (m.matcher_name = n) = true by simpa using hm)]
      have hmem : (n ∈ t.map Mapping.matcher_name) ↔
          (n ∈ (m :: t).map Mapping.matcher_name) := by
        rw [List.map_cons, List.mem_cons]
        exact ⟨Or.inr, fun hc => hc.elim (fun he => absurd he.symm hm) id⟩
      exact if_congr hmem rfl rfl

/-- `fuseGroup` reproduces the key it was given. -/
lemma fuseGroup_get_key (k : MappingKey) (ms : List Mapping) :
    (fuseGroup k ms).get_key = k := rfl

/-- Every fused record is `fuseGroup` of its own key group. -/
lemma mem_fuse_decomp (input : List (String × List Mapping)) (mc : ℚ)
    (x : FusedMapping) (hx : x ∈ fuse_mappings input mc) :
    x = fuseGroup x.get_key
      ((prepared input mc).filter (fun m => m.get_key = x.get_key)) := by
  simp only [fuse_mappings] at hx
  rcases List.mem_map.mp hx with ⟨k, hk, rfl⟩
  rw [fuseGroup_get_key]

/-- C2 (amended): every record `x` produced by `fuse_mappings` satisfies
`support_count = len(supporting_matchers) = len(confidences)` and
`consensus_confidence = mean(confidences.values())`; and each matcher's
entry in `confidences` is the maximum of `0` and the confidences that
matcher reported for the key among the min-confidence-filtered records
(the source seeds the running maximum with `confidences.get(name, 0.0)`,
so an all-negative matcher is clamped to `0` rather than its true
maximum). -/
theorem fuse_record_invariants (input : List (String × List Mapping)) (mc : ℚ)
    (x : FusedMapping) (hx : x ∈ fuse_mappings input mc) :
    x.support_count = x.supporting_matchers.length ∧
    x.support_count = x.confidences.length ∧
    x.consensus_confidence =
      (x.confidences.map Prod.snd).sum / (x.confidences.length : ℚ) ∧
    ∀ name v, lookupQ x.confidences name = some v →
      v = ((((prepared input mc).filter (fun m => m.get_key = x.get_key)).filter
          (fun m => m.matcher_name = name)).map Mapping.confidence).foldl max 0 := by
  have hd := mem_fuse_decomp input mc x hx
  refine ⟨rfl, ?_, ?_, ?_⟩
  · rw [hd]
    simp [fuseGroup, FusedMapping.support_count]
  · rw [hd]
    simp [fuseGroup]
  · intro name v h
    rw [hd] at h
    simp only [fuseGroup] at h
    rw [foldl_upsert_lookup_none _ [] name rfl] at h
    split at h
    · rw [Option.some_inj] at h
      exact h.symm
    · exact absurd h (by simp)

/-- A raw record whose only reported confidence is negative. -/
def negRec : Mapping := ⟨"s", "o", "p", -1, "m1", none⟩

/-- The fused record the source produces from `negRec` at
`min_confidence = -2`: the matcher's entry is clamped to `0`. -/
def negFused : FusedMapping := ⟨"s", "o", "p", [("m1", 0)], ["m1"], 0, none⟩

/-- Concrete run: fusing the single negative-confidence record. -/
lemma fuse_negRec_eval : fuse_mappings [("m1", [negRec])] (-2) = [negFused] := by
  simp [fuse_mappings, prepared, dedupFirst, dedupFirstAux, fuseGroup,
    upsertMax, lookupQ, negRec, negFused, Mapping.get_key, truthyJustifications]

/-- C2 is false as stated: fusing a single record with confidence `-1`
(admitted by `min_confidence = -2`) stores `0`, not the maximum confidence
`-1` that the matcher reported, because Python seeds the running maximum
with `confidences.get(name, 0.0)`. -/
theorem fuse_max_confidence_counterexample :
    fuse_mappings [("m1", [negRec])] (-2) = [negFused] ∧
    lookupQ negFused.confidences "m1" = some 0 ∧
    qMax (((prepared [("m1", [negRec])] (-2)).filter
      (fun m => m.matcher_name = "m1")).map Mapping.confidence) = -1 ∧
    (0 : ℚ) ≠ -1 := by
  refine ⟨fuse_negRec_eval, by decide, ?_, by norm_num⟩
  simp [prepared, qMax, negRec]

/-- Witness: the amended fusion invariants applied at a one-record input. -/
theorem fuse_record_invariants_witness :
    negFused.support_count = negFused.supporting_matchers.length ∧
    negFused.support_count = negFused.confidences.length ∧
    negFused.consensus_confidence =
      (negFused.confidences.map Prod.snd).sum / (negFused.confidences.length : ℚ) ∧
    ∀ name v, lookupQ negFused.confidences name = some v →
      v = ((((prepared [("m1", [negRec])] (-2)).filter
          (fun m => m.get_key = negFused.get_key)).filter
          (fun m => m.matcher_name = name)).map Mapping.confidence).foldl max 0 :=
  fuse_record_invariants [("m1", [negRec])] (-2) negFused
    (by rw [fuse_negRec_eval]; exact List.mem_singleton.mpr rfl)

/-- C3 (amended): every fused record's justification is the
semicolon-joined list of the truthy justification strings of its
contributing (filtered, key-matching) records in record order — duplicates
retained, so a repeated justification appears repeatedly — or `none` when
no contributing record supplies one. -/
theorem fuse_justification_joined (input : List (String × List Mapping)) (mc : ℚ)
    (x : FusedMapping) (hx : x ∈ fuse_mappings input mc) :
    x.mapping_justification =
      (if (truthyJustifications ((prepared input mc).filter
            (fun m => m.get_key = x.get_key))).isEmpty then none
       else some (String.intercalate "; "
          (truthyJustifications ((prepared input mc).filter
            (fun m => m.get_key = x.get_key))))) := by
  have hd := mem_fuse_decomp input mc x hx
  conv_lhs => rw [hd]
  rfl

/-- Two same-key records from two matchers carrying the same justification
string. -/
def lexRec1 : Mapping := ⟨"s", "o", "p", 1, "m1", some "lex"⟩

/-- Companion record to `lexRec1` from a second matcher. -/
def lexRec2 : Mapping := ⟨"s", "o", "p", 1, "m2", some "lex"⟩

/-- The fused record the source produces from `lexRec1` and `lexRec2`:
the shared justification is joined twice. -/
def lexFused : FusedMapping :=
  ⟨"s", "o", "p", [("m1", 1), ("m2", 1)], ["m1", "m2"], 1, some "lex; lex"⟩

/-- Concrete run: fusing the two same-justification records. -/
lemma fuse_lex_eval :
    fuse_mappings [("m1", [lexRec1]), ("m2", [lexRec2])] 0 = [lexFused] := by
  simp [fuse_mappings, prepared, dedupFirst, dedupFirstAux, fuseGroup,
    upsertMax, lookupQ, lexRec1, lexRec2, lexFused, Mapping.get_key,
    truthyJustifications]
  decide

/-- C3 is false as stated: when two contributing records carry the same
justification string `"lex"`, the source joins the raw list (not the set)
and produces `"lex; lex"`, in which the string appears twice, where the
claim demands the distinct-join `"lex"`. -/
theorem fuse_justification_counterexample :
    fuse_mappings [("m1", [lexRec1]), ("m2", [lexRec2])] 0 = [lexFused] ∧
    lexFused.mapping_justification = some "lex; lex" ∧
    some "lex; lex" ≠ some "lex" := by
  refine ⟨fuse_lex_eval, by decide, by decide⟩

/-- Witness: the amended justification theorem applied at the two-record
input. -/
theorem fuse_justification_joined_witness :
    lexFused.mapping_justification =
      (if (truthyJustifications ((prepared [("m1", [lexRec1]), ("m2", [lexRec2])] 0).filter
            (fun m => m.get_key = lexFused.get_key))).isEmpty then none
       else some (String.intercalate "; "
          (truthyJustifications ((prepared [("m1", [lexRec1]), ("m2", [lexRec2])] 0).filter
            (fun m => m.get_key = lexFused.get_key))))) :=
  fuse_justification_joined [("m1", [lexRec1]), ("m2", [lexRec2])] 0 lexFused
    (by rw [fuse_lex_eval]; exact List.mem_singleton.mpr rfl)

/-- A weighted-strategy configuration with absent `matcher_weights`, as a
caller would pass it. -/
def mutConfig : VotingConfig := { strategy := "weighted" }

/-- C4: the source code violates the claim — calling `vote` under the
Weighted strategy with absent `matcher_weights` assigns the synthesized
placeholder weights into `config.matcher_weights`, so the caller's config
object does not come back unchanged (`voting.py` line 233). -/
theorem vote_mutates_config :
    mutConfig.matcher_weights = none ∧
    ∃ res cfg', vote [] mutConfig 2 = .ok (res, cfg') ∧
      cfg'.matcher_weights = some (defaultWeights 2) ∧ cfg' ≠ mutConfig := by
  refine ⟨rfl, ⟨[], [], 2, "weighted"⟩,
    { mutConfig with matcher_weights := some (defaultWeights 2) }, ?_, rfl, ?_⟩
  · rfl
  · intro h
    exact Option.some_ne_none _ (congrArg VotingConfig.matcher_weights h)

/-! ### Conflict-resolution lemmas -/

lemma foldlConf_mem (t : List FusedMapping) (a : FusedMapping) :
    t.foldl (fun best m =>
      if best.consensus_confidence < m.consensus_confidence then m else best) a = a ∨
    t.foldl (fun best m =>
      if best.consensus_confidence < m.consensus_confidence then m else best) a ∈ t := by
  induction t generalizing a with
  | nil => exact Or.inl rfl
  | cons m t ih =>
    rw [List.foldl_cons]
    rcases ih (if a.consensus_confidence < m.consensus_confidence then m else a) with h | h
    · rw [h]
      by_cases hc : a.consensus_confidence < m.consensus_confidence
      · rw [if_pos hc]
        exact Or.inr (List.mem_cons_self _ _)
      · rw [if_neg hc]
        exact Or.inl rfl
    · exact Or.inr (List.mem_cons_of_mem _ h)

lemma foldlConf_ge (t : List FusedMapping) (a : FusedMapping) :
    a.consensus_confidence ≤ (t.foldl (fun best m =>
      if best.consensus_confidence < m.consensus_confidence then m else best)
        a).consensus_confidence ∧
    ∀ m ∈ t, m.consensus_confidence ≤ (t.foldl (fun best m =>
      if best.consensus_confidence < m.consensus_confidence then m else best)
        a).consensus_confidence := by
  induction t generalizing a with
  | nil => exact ⟨le_refl _, by simp⟩
  | cons m t ih =>
    rw [List.foldl_cons]
    obtain ⟨h1, h2⟩ := ih (if a.consensus_confidence < m.consensus_confidence then m else a)
    refine ⟨le_trans ?_ h1, fun x hx => ?_⟩
    · by_cases hc : a.consensus_confidence < m.consensus_confidence
      · rw [if_pos hc]
        exact le_of_lt hc
      · rw [if_neg hc]
    · rcases List.mem_cons.mp hx with rfl | hx
      · refine le_trans ?_ h1
        by_cases hc : a.consensus_confidence < x.consensus_confidence
        · rw [if_pos hc]
        · rw [if_neg hc]
          exact le_of_not_lt hc
      · exact h2 x hx

/-- Python `max(l, key=confidence)` on a nonempty list returns a member
attaining the maximum consensus confidence. -/
lemma maxByConfidence_spec (l : List FusedMapping) (h : l ≠ []) :
    ∃ b, maxByConfidence l = some b ∧ b ∈ l ∧
      ∀ m ∈ l, m.consensus_confidence ≤ b.consensus_confidence := by
  match l with
  | [] => exact absurd rfl h
  | a :: t =>
    refine ⟨_, rfl, ?_, fun m hm => ?_⟩
    · rcases foldlConf_mem t a with he | he
      · rw [he]
        exact List.mem_cons_self _ _
      · exact List.mem_cons_of_mem _ he
    · rcases List.mem_cons.mp hm with rfl | hm
      · exact (foldlConf_ge t m).1
      · exact (foldlConf_ge t a).2 m hm

/-- Every conflict group produced by `identify_conflicts` is nonempty. -/
lemma identify_conflicts_groups_nonempty (ms : List FusedMapping) :
    ∀ p ∈ identify_conflicts ms, p.2 ≠ [] := by
  intro p hp
  rw [identify_conflicts] at hp
  rcases List.mem_map.mp (List.mem_filter.mp hp).1 with ⟨s, hs, rfl⟩
  have hsm : s ∈ ms.map FusedMapping.subject_id := (mem_dedupFirst _ _).mp hs
  rcases List.mem_map.mp hsm with ⟨m, hm, hms⟩
  intro hnil
  have hmem : m ∈ ms.filter (fun m => m.subject_id = s) :=
    List.mem_filter.mpr ⟨hm, by simpa using hms⟩
  have hnil' : ms.filter (fun m => m.subject_id = s) = [] := hnil
  rw [hnil'] at hmem
  exact List.not_mem_nil m hmem

/-- The conflicting subjects are pairwise distinct (one conflict group per
subject). -/
lemma identify_conflicts_fst_nodup (ms : List FusedMapping) :
    ((identify_conflicts ms).map Prod.fst).Nodup := by
  rw [identify_conflicts]
  have h1 := (List.filter_sublist
    ((dedupFirst (ms.map FusedMapping.subject_id)).map
      (fun s => (s, ms.filter (fun m => m.subject_id = s))))
    (p := fun p => decide (1 < (dedupFirst (p.2.map FusedMapping.object_id)).length))).map
      Prod.fst
  rw [List.map_map] at h1
  have h2 : (dedupFirst (ms.map FusedMapping.subject_id)).map
      (Prod.fst ∘ fun s => (s, ms.filter (fun m => m.subject_id = s))) =
      dedupFirst (ms.map FusedMapping.subject_id) := List.map_id' _
  rw [h2] at h1
  exact (nodup_dedupFirst _).sublist h1

/-- `filterMap` of per-group maxima lines up one chosen representative with
each conflict group. -/
lemma filterMap_maxByConfidence_forall2 (cs : List (String × List FusedMapping))
    (h : ∀ p ∈ cs, p.2 ≠ []) :
    List.Forall₂ (fun (p : String × List FusedMapping) b =>
        b ∈ p.2 ∧ ∀ m ∈ p.2, m.consensus_confidence ≤ b.consensus_confidence)
      cs (cs.filterMap (fun p => maxByConfidence p.2)) := by
  induction cs with
  | nil => exact List.Forall₂.nil
  | cons p cs ih =>
    obtain ⟨b, hb, hmem, hge⟩ := maxByConfidence_spec p.2 (h p (List.mem_cons_self _ _))
    simp only [List.filterMap_cons, hb]
    exact List.Forall₂.cons ⟨hmem, hge⟩ (ih (fun q hq => h q (List.mem_cons_of_mem _ hq)))

/-- C5: `resolve_conflicts` with the `"confidence"` strategy reports one
conflict per conflicting subject (`total_conflicts` counts subjects, not
records), passes every non-conflicting record through unchanged, and picks
for each conflicting subject exactly one record of its group attaining the
maximal consensus confidence. -/
theorem resolve_confidence_spec (ms : List FusedMapping) :
    (resolve_conflicts ms "confidence").total_conflicts =
      (identify_conflicts ms).length ∧
    ((identify_conflicts ms).map Prod.fst).Nodup ∧
    (identify_conflicts ms = [] →
      (resolve_conflicts ms "confidence").resolved_mappings = ms) ∧
    (identify_conflicts ms ≠ [] →
      ∃ chosen, List.Forall₂ (fun (p : String × List FusedMapping) b =>
          b ∈ p.2 ∧ ∀ m ∈ p.2, m.consensus_confidence ≤ b.consensus_confidence)
        (identify_conflicts ms) chosen ∧
        (resolve_conflicts ms "confidence").resolved_mappings =
          ms.filter (fun m =>
            m.subject_id ∉ (identify_conflicts ms).map Prod.fst) ++ chosen ∧
        chosen.length = (identify_conflicts ms).length) := by
  refine ⟨?_, identify_conflicts_fst_nodup ms, ?_, ?_⟩
  · by_cases hc : identify_conflicts ms = []
    · simp [resolve_conflicts, hc]
    · have hemp : (identify_conflicts ms).isEmpty = false := by
        simpa [List.isEmpty_iff] using hc
      simp [resolve_conflicts, hemp]
  · intro hc
    simp [resolve_conflicts, hc]
  · intro hc
    have hemp : (identify_conflicts ms).isEmpty = false := by
      simpa [List.isEmpty_iff] using hc
    refine ⟨(identify_conflicts ms).filterMap (fun p => maxByConfidence p.2),
      filterMap_maxByConfidence_forall2 _ (identify_conflicts_groups_nonempty ms),
      ?_, ?_⟩
    · simp [resolve_conflicts, hemp, resolve_conflicts_by_confidence]
    · exact (List.Forall₂.length_eq
        (filterMap_maxByConfidence_forall2 _
          (identify_conflicts_groups_nonempty ms))).symm

/-- Conflicting record: subject `s1` mapped to object `o1`. -/
def confA : FusedMapping := ⟨"s1", "o1", "p", [("m1", 0)], ["m1"], 0, none⟩

/-- Conflicting record: subject `s1` mapped to object `o2`, higher
confidence. -/
def confB : FusedMapping := ⟨"s1", "o2", "p", [("m2", 1)], ["m2"], 1, none⟩

/-- Non-conflicting record on subject `s2`. -/
def confC : FusedMapping := ⟨"s2", "o3", "p", [("m1", 1)], ["m1"], 1, none⟩

/-- Witness: the confidence-resolution theorem applied at a concrete input
with one conflicting subject. -/
theorem resolve_confidence_spec_witness :
    ∃ chosen, List.Forall₂ (fun (p : String × List FusedMapping) b =>
        b ∈ p.2 ∧ ∀ m ∈ p.2, m.consensus_confidence ≤ b.consensus_confidence)
      (identify_conflicts [confA, confB, confC]) chosen ∧
      (resolve_conflicts [confA, confB, confC] "confidence").resolved_mappings =
        [confA, confB, confC].filter (fun m =>
          m.subject_id ∉ (identify_conflicts [confA, confB, confC]).map Prod.fst)
          ++ chosen ∧
      chosen.length = (identify_conflicts [confA, confB, confC]).length :=
  (resolve_confidence_spec [confA, confB, confC]).2.2.2 (by decide)

/-- The scenario record: key supported by two of three matchers. -/
def scenRec : FusedMapping :=
  ⟨"k", "o", "p", [("M1", 1), ("M2", 1)], ["M1", "M2"], 1, none⟩

/-- A majority-strategy configuration (support ratio, unused by this
strategy, zeroed so concrete runs evaluate). -/
def majCfg : VotingConfig := { strategy := "majority", min_support_ratio := 0 }

/-- C6: under the Majority strategy a pre-filtered record is accepted iff
`support_count >= total_matchers/2 + 0.5` in exact (real-valued)
arithmetic; concretely, with `total_matchers = 3` a record with
`support_count = 2` is accepted by Majority but rejected by Unanimous. -/
theorem majority_threshold_rule :
    (∀ (ms : List FusedMapping) (config : VotingConfig) (total : ℕ),
      config.strategy = "majority" →
      ∃ res, vote ms config total = .ok (res, config) ∧
        ∀ m ∈ preFilter ms config,
          (m ∈ res.accepted_mappings ↔
            (total : ℚ) / 2 + 1/2 ≤ (m.support_count : ℚ))) ∧
    (∃ res, vote [scenRec] majCfg 3 = .ok (res, majCfg) ∧
      scenRec ∈ res.accepted_mappings) ∧
    (∃ res, vote [scenRec] cxConfigU 3 = .ok (res, cxConfigU) ∧
      scenRec ∉ res.accepted_mappings ∧ scenRec ∈ res.rejected_mappings) := by
  have hgen : ∀ (ms : List FusedMapping) (config : VotingConfig) (total : ℕ),
      config.strategy = "majority" →
      ∃ res, vote ms config total = .ok (res, config) ∧
        ∀ m ∈ preFilter ms config,
          (m ∈ res.accepted_mappings ↔
            (total : ℚ) / 2 + 1/2 ≤ (m.support_count : ℚ)) := by
    intro ms config total h
    refine ⟨mkVotingResult (preFilter ms config)
      (apply_majority_voting (preFilter ms config) total) total config.strategy,
      by rw [vote, if_pos h], fun m hm => ?_⟩
    simp only [mkVotingResult, apply_majority_voting]
    constructor
    · intro ha
      have := (List.mem_filter.mp ha).2
      rwa [decide_eq_true_eq] at this
    · intro hcond
      exact List.mem_filter.mpr ⟨hm, by simpa using hcond⟩
  refine ⟨hgen, ?_, ?_⟩
  · obtain ⟨res, heq, hiff⟩ := hgen [scenRec] majCfg 3 rfl
    refine ⟨res, heq, (hiff scenRec (by decide)).mpr ?_⟩
    show ((3 : ℕ) : ℚ) / 2 + 1/2 ≤ ((scenRec.support_count : ℕ) : ℚ)
    norm_num [scenRec, FusedMapping.support_count]
  · exact ⟨⟨[], [scenRec], 3, "unanimous"⟩, by decide, by decide, by decide⟩

/-- Witness: the majority rule applied at the scenario input. -/
theorem majority_threshold_rule_witness :
    ∃ res, vote [scenRec] majCfg 3 = .ok (res, majCfg) ∧
      ∀ m ∈ preFilter [scenRec] majCfg,
        (m ∈ res.accepted_mappings ↔
          ((3 : ℕ) : ℚ) / 2 + 1/2 ≤ (m.support_count : ℚ)) :=
  majority_threshold_rule.1 [scenRec] majCfg 3 rfl

/-- C7: under the Threshold strategy a pre-filtered record is accepted iff
its support count reaches
`max(min_support_count, trunc(min_support_ratio * total_matchers))`, the
product being truncated toward zero — e.g. `0.5 * 3 = 1.5` truncates to `1`
(not 2), and `-0.5 * 3 = -1.5` truncates to `-1` (toward zero, not down). -/
theorem threshold_rule :
    (∀ (ms : List FusedMapping) (config : VotingConfig) (total : ℕ),
      config.strategy = "threshold" →
      ∃ res, vote ms config total = .ok (res, config) ∧
        ∀ m ∈ preFilter ms config,
          (m ∈ res.accepted_mappings ↔
            max config.min_support_count
              (truncTowardZero (config.min_support_ratio * (total : ℚ)))
              ≤ (m.support_count : ℤ))) ∧
    truncTowardZero ((1/2 : ℚ) * 3) = 1 ∧
    truncTowardZero ((7/10 : ℚ) * 10) = 7 ∧
    truncTowardZero ((-(1/2) : ℚ) * 3) = -1 := by
  refine ⟨?_, ?_, ?_, ?_⟩
  · intro ms config total h
    refine ⟨mkVotingResult (preFilter ms config)
      (apply_threshold_voting (preFilter ms config) config.min_support_count
        config.min_support_ratio total) total config.strategy,
      ?_, fun m hm => ?_⟩
    · rw [vote, if_neg (by rw [h]; decide), if_neg (by rw [h]; decide),
        if_neg (by rw [h]; decide), if_neg (by rw [h]; decide), if_pos h]
    · simp only [mkVotingResult, apply_threshold_voting]
      constructor
      · intro ha
        have := (List.mem_filter.mp ha).2
        rwa [decide_eq_true_eq] at this
      · intro hcond
        exact List.mem_filter.mpr ⟨hm, by simpa using hcond⟩
  · rw [truncTowardZero, if_pos (by norm_num)]
    norm_num
  · rw [truncTowardZero, if_pos (by norm_num)]
    norm_num
  · rw [truncTowardZero, if_neg (by norm_num),
      show ((-(1/2) : ℚ) * 3) = -(3/2) by norm_num, Int.ceil_neg]
    norm_num

/-- A threshold-strategy configuration. -/
def thrCfg : VotingConfig := { strategy := "threshold", min_support_ratio := 0 }

/-- Witness: the threshold rule applied at a concrete input. -/
theorem threshold_rule_witness :
    ∃ res, vote [scenRec] thrCfg 2 = .ok (res, thrCfg) ∧
      ∀ m ∈ preFilter [scenRec] thrCfg,
        (m ∈ res.accepted_mappings ↔
          max thrCfg.min_support_count
            (truncTowardZero (thrCfg.min_support_ratio * ((2 : ℕ) : ℚ)))
            ≤ (m.support_count : ℤ)) :=
  threshold_rule.1 [scenRec] thrCfg 2 rfl

/-- C8: asymmetric error policy — `vote` fails loudly (raises) for any
strategy outside the five enumerated voting strategies, while
`resolve_conflicts` silently treats any unknown strategy string exactly
like `"confidence"`, differing only in the recorded strategy name. -/
theorem strategy_error_asymmetry :
    (∀ (ms : List FusedMapping) (config : VotingConfig) (total : ℕ),
      config.strategy ∉
        ["majority", "unanimous", "weighted", "confidence_weighted", "threshold"] →
      vote ms config total =
        .error ("Unknown voting strategy: " ++ config.strategy)) ∧
    (∀ (ms : List FusedMapping) (strategy : String),
      strategy ∉ ["confidence", "support", "specificity", "keep_all"] →
      resolve_conflicts ms strategy =
        { resolve_conflicts ms "confidence" with
            resolution_strategy := strategy }) := by
  constructor
  · intro ms config total h
    simp only [List.mem_cons, List.not_mem_nil, or_false, not_or] at h
    obtain ⟨h1, h2, h3, h4, h5⟩ := h
    rw [vote, if_neg h1, if_neg h2, if_neg h3, if_neg h4, if_neg h5]
  · intro ms s h
    simp only [List.mem_cons, List.not_mem_nil, or_false, not_or] at h
    obtain ⟨h1, h2, h3, h4⟩ := h
    by_cases hc : (identify_conflicts ms).isEmpty = true
    · simp [resolve_conflicts, hc]
    · simp [resolve_conflicts, hc, h1, h2, h3, h4]

/-- A configuration carrying a strategy value outside the enumerated set. -/
def cxConfigB : VotingConfig := { strategy := "bogus" }

/-- Witness: the asymmetry theorem applied at the unknown strategy
`"bogus"`. -/
theorem strategy_error_asymmetry_witness :
    vote [] cxConfigB 1 =
      .error ("Unknown voting strategy: " ++ cxConfigB.strategy) ∧
    resolve_conflicts [confA, confB, confC] "bogus" =
      { resolve_conflicts [confA, confB, confC] "confidence" with
          resolution_strategy := "bogus" } :=
  ⟨strategy_error_asymmetry.1 [] cxConfigB 1 (by decide),
   strategy_error_asymmetry.2 [confA, confB, confC] "bogus" (by decide)⟩

/-- The pre-filter of an empty fused set is empty. -/
lemma preFilter_nil (config : VotingConfig) : preFilter [] config = [] := by
  rw [preFilter]
  split <;> rfl

/-- `vote` on an empty fused list under any of the five strategies returns
an `ok` result with empty accepted and rejected lists. -/
lemma vote_empty_ok (config : VotingConfig) (total : ℕ)
    (hs : config.strategy ∈
      ["majority", "unanimous", "weighted", "confidence_weighted", "threshold"]) :
    ∃ out, vote [] config total = .ok out ∧
      out.1.accepted_mappings = [] ∧ out.1.rejected_mappings = [] := by
  simp only [List.mem_cons, List.not_mem_nil, or_false] at hs
  rcases hs with h | h | h | h | h
  · refine ⟨_, by rw [vote, if_pos h], ?_, ?_⟩ <;>
      simp [mkVotingResult, apply_majority_voting, preFilter_nil]
  · refine ⟨_, by rw [vote, if_neg (by rw [h]; decide), if_pos h], ?_, ?_⟩ <;>
      simp [mkVotingResult, apply_unanimous_voting, preFilter_nil]
  · refine ⟨_, by rw [vote, if_neg (by rw [h]; decide), if_neg (by rw [h]; decide),
      if_pos h], ?_, ?_⟩ <;>
      simp [mkVotingResult, apply_weighted_voting, preFilter_nil]
  · refine ⟨_, by rw [vote, if_neg (by rw [h]; decide), if_neg (by rw [h]; decide),
      if_neg (by rw [h]; decide), if_pos h], ?_, ?_⟩ <;>
      simp [mkVotingResult, apply_confidence_weighted_voting, preFilter_nil]
  · refine ⟨_, by rw [vote, if_neg (by rw [h]; decide), if_neg (by rw [h]; decide),
      if_neg (by rw [h]; decide), if_neg (by rw [h]; decide), if_pos h], ?_, ?_⟩ <;>
      simp [mkVotingResult, apply_threshold_voting, preFilter_nil]

/-- C9: degenerate inputs never raise — `vote` on an empty fused list
returns an `ok` result with empty accepted and rejected lists for each of
the five strategies (any `total_matchers`, including `0`);
`calculate_quality_metrics` of the empty list is the all-zero metrics with
empty distributions; `compare_with_reference` yields
`precision = recall = f1 = 0` whenever either side is empty (its
zero-denominator branches return `0.0`). -/
theorem degenerate_inputs_zero :
    (∀ (s : String) (msc : ℤ) (msr mc : ℚ) (mw : Option (List (String × ℚ)))
        (total : ℕ),
      s ∈ ["majority", "unanimous", "weighted", "confidence_weighted",
        "threshold"] →
      ∃ out, vote [] ⟨s, msc, msr, mc, mw⟩ total = .ok out ∧
        out.1.accepted_mappings = [] ∧ out.1.rejected_mappings = []) ∧
    calculate_quality_metrics [] =
      { total_mappings := 0, unique_subjects := 0, unique_objects := 0,
        avg_confidence := 0, min_confidence := 0, max_confidence := 0,
        avg_support_count := 0, min_support_count := 0,
        max_support_count := 0 } ∧
    (∀ ms, (compare_with_reference ms []).precision = 0 ∧
      (compare_with_reference ms []).«recall» = 0 ∧
      (compare_with_reference ms []).f1_score = 0) ∧
    (∀ rs, (compare_with_reference [] rs).precision = 0 ∧
      (compare_with_reference [] rs).«recall» = 0 ∧
      (compare_with_reference [] rs).f1_score = 0) := by
  refine ⟨?_, rfl, ?_, ?_⟩
  · intro s msc msr mc mw total hs
    exact vote_empty_ok ⟨s, msc, msr, mc, mw⟩ total hs
  · intro ms
    simp [compare_with_reference, dedupFirst, dedupFirstAux]
  · intro rs
    simp [compare_with_reference, dedupFirst, dedupFirstAux]

/-- Witness: the degenerate-input theorem applied at the Weighted strategy
with a zero-matcher ensemble. -/
theorem degenerate_inputs_zero_witness :
    ∃ out, vote [] ⟨"weighted", 2, 0, 0, none⟩ 0 = .ok out ∧
      out.1.accepted_mappings = [] ∧ out.1.rejected_mappings = [] :=
  degenerate_inputs_zero.1 "weighted" 2 0 0 none 0 (by decide)

/-- How many of the five fixed confidence bins of
`calculate_quality_metrics` a confidence value falls into. -/
def binHits (c : ℚ) : ℕ :=
  (if 0 ≤ c ∧ c < 1/5 then 1 else 0) + (if 1/5 ≤ c ∧ c < 2/5 then 1 else 0) +
  (if 2/5 ≤ c ∧ c < 3/5 then 1 else 0) + (if 3/5 ≤ c ∧ c < 4/5 then 1 else 0) +
  (if 4/5 ≤ c ∧ c ≤ 1 then 1 else 0)

/-- The five bins are pairwise disjoint and cover exactly `[0, 1]`. -/
lemma binHits_eq (c : ℚ) : binHits c = if 0 ≤ c ∧ c ≤ 1 then 1 else 0 := by
  rw [binHits]
  by_cases h0 : 0 ≤ c
  · by_cases h1 : c < 1/5
    · rw [if_pos ⟨h0, h1⟩, if_neg (by rintro ⟨ha, -⟩; linarith),
        if_neg (by rintro ⟨ha, -⟩; linarith), if_neg (by rintro ⟨ha, -⟩; linarith),
        if_neg (by rintro ⟨ha, -⟩; linarith), if_pos ⟨h0, by linarith⟩]
    · by_cases h2 : c < 2/5
      · rw [if_neg (by rintro ⟨-, hb⟩; exact h1 hb),
          if_pos ⟨le_of_not_lt h1, h2⟩, if_neg (by rintro ⟨ha, -⟩; linarith),
          if_neg (by rintro ⟨ha, -⟩; linarith), if_neg (by rintro ⟨ha, -⟩; linarith),
          if_pos ⟨h0, by linarith⟩]
      · by_cases h3 : c < 3/5
        · rw [if_neg (by rintro ⟨-, hb⟩; exact h1 hb),
            if_neg (by rintro ⟨-, hb⟩; exact h2 hb),
            if_pos ⟨le_of_not_lt h2, h3⟩, if_neg (by rintro ⟨ha, -⟩; linarith),
            if_neg (by rintro ⟨ha, -⟩; linarith), if_pos ⟨h0, by linarith⟩]
        · by_cases h4 : c < 4/5
          · rw [if_neg (by rintro ⟨-, hb⟩; exact h1 hb),
              if_neg (by rintro ⟨-, hb⟩; exact h2 hb),
              if_neg (by rintro ⟨-, hb⟩; exact h3 hb),
              if_pos ⟨le_of_not_lt h3, h4⟩,
              if_neg (by rintro ⟨ha, -⟩; linarith), if_pos ⟨h0, by linarith⟩]
          · by_cases h5 : c ≤ 1
            · rw [if_neg (by rintro ⟨-, hb⟩; exact h1 hb),
                if_neg (by rintro ⟨-, hb⟩; exact h2 hb),
                if_neg (by rintro ⟨-, hb⟩; exact h3 hb),
                if_neg (by rintro ⟨-, hb⟩; exact h4 hb),
                if_pos ⟨le_of_not_lt h4, h5⟩, if_pos ⟨h0, h5⟩]
            · rw [if_neg (by rintro ⟨-, hb⟩; exact h1 hb),
                if_neg (by rintro ⟨-, hb⟩; exact h2 hb),
                if_neg (by rintro ⟨-, hb⟩; exact h3 hb),
                if_neg (by rintro ⟨-, hb⟩; exact h4 hb),
                if_neg (by rintro ⟨-, hb⟩; exact h5 hb),
                if_neg (by rintro ⟨-, hb⟩; exact h5 hb)]
  · rw [if_neg (by rintro ⟨ha, -⟩; exact h0 ha),
      if_neg (by rintro ⟨ha, -⟩; linarith),
      if_neg (by rintro ⟨ha, -⟩; linarith), if_neg (by rintro ⟨ha, -⟩; linarith),
      if_neg (by rintro ⟨ha, -⟩; linarith), if_neg (by rintro ⟨ha, -⟩; exact h0 ha)]

/-- Summed over any confidence list, the five bin counts add up to the
count of in-range values. -/
lemma sum_bin_counts (l : List ℚ) :
    l.countP (fun c => decide (0 ≤ c ∧ c < 1/5)) +
    l.countP (fun c => decide (1/5 ≤ c ∧ c < 2/5)) +
    l.countP (fun c => decide (2/5 ≤ c ∧ c < 3/5)) +
    l.countP (fun c => decide (3/5 ≤ c ∧ c < 4/5)) +
    l.countP (fun c => decide (4/5 ≤ c ∧ c ≤ 1)) =
    l.countP (fun c => decide (0 ≤ c ∧ c ≤ 1)) := by
  induction l with
  | nil => rfl
  | cons c t ih =>
    have hc := binHits_eq c
    rw [binHits] at hc
    simp only [List.countP_cons, decide_eq_true_eq]
    omega

/-- The nonempty branch of `calculate_quality_metrics` records the five-bin
histogram. -/
lemma cqm_confidence_distribution (ms : List FusedMapping)
    (hemp : ms.isEmpty = false) :
    (calculate_quality_metrics ms).confidence_distribution =
      [ ("0.0-0.2", (ms.map FusedMapping.consensus_confidence).countP
          (fun c => decide (0 ≤ c ∧ c < 1/5))),
        ("0.2-0.4", (ms.map FusedMapping.consensus_confidence).countP
          (fun c => decide (1/5 ≤ c ∧ c < 2/5))),
        ("0.4-0.6", (ms.map FusedMapping.consensus_confidence).countP
          (fun c => decide (2/5 ≤ c ∧ c < 3/5))),
        ("0.6-0.8", (ms.map FusedMapping.consensus_confidence).countP
          (fun c => decide (3/5 ≤ c ∧ c < 4/5))),
        ("0.8-1.0", (ms.map FusedMapping.consensus_confidence).countP
          (fun c => decide (4/5 ≤ c ∧ c ≤ 1))) ] := by
  rw [calculate_quality_metrics, if_neg (by simp [hemp])]

/-- The nonempty branch of `calculate_quality_metrics` counts every input
record. -/
lemma cqm_total (ms : List FusedMapping) (hemp : ms.isEmpty = false) :
    (calculate_quality_metrics ms).total_mappings = ms.length := by
  rw [calculate_quality_metrics, if_neg (by simp [hemp])]

/-- C10: for nonempty input, each record is counted in at most one
confidence bin and only when its consensus confidence lies in `[0, 1]`;
the five bin counts sum to the number of in-range records, which is
strictly less than `total_mappings` whenever some record's consensus
confidence is negative or greater than `1` (out-of-range records are
silently omitted from the histogram). -/
theorem confidence_histogram_bins (ms : List FusedMapping) (h : ms ≠ []) :
    ((calculate_quality_metrics ms).confidence_distribution.map Prod.snd).sum =
      (ms.map FusedMapping.consensus_confidence).countP
        (fun c => decide (0 ≤ c ∧ c ≤ 1)) ∧
    (∀ m ∈ ms, binHits m.consensus_confidence ≤ 1 ∧
      (binHits m.consensus_confidence = 1 ↔
        (0 ≤ m.consensus_confidence ∧ m.consensus_confidence ≤ 1))) ∧
    ((∃ m ∈ ms, m.consensus_confidence < 0 ∨ 1 < m.consensus_confidence) →
      ((calculate_quality_metrics ms).confidence_distribution.map Prod.snd).sum <
        (calculate_quality_metrics ms).total_mappings) := by
  have hemp : ms.isEmpty = false := by simpa [List.isEmpty_iff] using h
  have hsum :
      ((calculate_quality_metrics ms).confidence_distribution.map Prod.snd).sum =
        (ms.map FusedMapping.consensus_confidence).countP
          (fun c => decide (0 ≤ c ∧ c ≤ 1)) := by
    rw [cqm_confidence_distribution ms hemp]
    have hs := sum_bin_counts (ms.map FusedMapping.consensus_confidence)
    simp only [List.map_cons, List.map_nil, List.sum_cons, List.sum_nil]
    omega
  refine ⟨hsum, fun m hm => ?_, fun hex => ?_⟩
  · rw [binHits_eq]
    constructor
    · split <;> norm_num
    · split
      · next hcond => exact iff_of_true rfl hcond
      · next hcond => exact iff_of_false (by norm_num) hcond
  · rcases hex with ⟨m, hm, hout⟩
    rw [hsum, cqm_total ms hemp]
    have hle : (ms.map FusedMapping.consensus_confidence).countP
        (fun c => decide (0 ≤ c ∧ c ≤ 1)) ≤ ms.length := by
      have h1 := @List.countP_le_length ℚ
        (fun c => decide (0 ≤ c ∧ c ≤ 1)) (ms.map FusedMapping.consensus_confidence)
      rwa [List.length_map] at h1
    refine lt_of_le_of_ne hle ?_
    intro heq
    have hall := List.countP_eq_length.mp (by rw [heq, List.length_map])
    have hmc := hall m.consensus_confidence (List.mem_map.mpr ⟨m, hm, rfl⟩)
    rw [decide_eq_true_eq] at hmc
    rcases hout with hout | hout
    · exact absurd hmc.1 (not_le.mpr hout)
    · exact absurd hmc.2 (not_le.mpr hout)

/-- A fused record whose consensus confidence `2` lies outside `[0, 1]`. -/
def outRec : FusedMapping := ⟨"a", "b", "p", [("m1", 2)], ["m1"], 2, none⟩

/-- A fused record whose consensus confidence `1` lies inside `[0, 1]`. -/
def inRec : FusedMapping := ⟨"c", "d", "p", [("m1", 1)], ["m1"], 1, none⟩

/-- Witness: the histogram theorem applied at a concrete input containing
an out-of-range record. -/
theorem confidence_histogram_bins_witness :
    ((calculate_quality_metrics [outRec, inRec]).confidence_distribution.map
        Prod.snd).sum <
      (calculate_quality_metrics [outRec, inRec]).total_mappings :=
  (confidence_histogram_bins [outRec, inRec] (by decide)).2.2
    ⟨outRec, by decide, by decide⟩

end GraphMesh
